import Mathlib

/-!
Verification of the Bartleby MPE controller firmware against its design
specification.  The definitions below are shallow embeddings of the Python
sources (`midi.py`, `notes.py`, `code.py`, `transport.py`): Python dicts
become insertion-ordered association lists, `collections.deque` with a
`maxlen` becomes a list with an explicit bound, machine floats used by the
release-velocity estimator become exact rationals, and fallible operations
(Python exceptions) return `Option`.
-/

namespace Bartleby

/-! ## Python primitives

Python `str.split(sep)` with a one-character separator is `List.splitOn`
on the character list (both return a single empty fragment on the empty
string and keep empty fragments).  Python `sep.join` is
`List.intercalate`.  Python `int(s)` accepts surrounding whitespace, an
optional sign, and a nonempty run of decimal digits; other inputs raise
`ValueError`, modelled as `none`.  Python dicts keep insertion order:
assignment to an existing key replaces the value in place, assignment to
a fresh key appends.
-/

/-- Whitespace characters stripped by Python `int()`. -/
def isPySpace (c : Char) : Bool :=
  c = ' ' || c = '\t' || c = '\n' || c = '\r'

/-- Strip leading and trailing whitespace from a character list. -/
def pyStrip (s : List Char) : List Char :=
  ((s.dropWhile isPySpace).reverse.dropWhile isPySpace).reverse

/-- Value of a nonempty all-digit character run, `none` otherwise. -/
def digitsVal (s : List Char) : Option ℕ :=
  if s ≠ [] ∧ ∀ c ∈ s, c.isDigit then
    some (s.foldl (fun a c => 10 * a + (c.toNat - '0'.toNat)) 0)
  else none

/-- Python `int(s)`: strip whitespace, optional sign, decimal digits. -/
def pyInt (s : List Char) : Option ℤ :=
  match pyStrip s with
  | [] => none
  | c :: cs =>
    if c = '-' then (digitsVal cs).map (fun n => -(n : ℤ))
    else if c = '+' then (digitsVal cs).map (fun n => (n : ℤ))
    else (digitsVal (c :: cs)).map (fun n => (n : ℤ))

/-- Division-by-ten loop producing decimal digits, most significant
first; the first argument is fuel bounding the recursion depth. -/
def natStrAux : ℕ → ℕ → List Char
  | _, 0 => []
  | 0, _ + 1 => []
  | fuel + 1, n + 1 =>
    natStrAux fuel ((n + 1) / 10) ++ [Nat.digitChar ((n + 1) % 10)]

/-- Decimal digit characters of a natural number, most significant first
(Python `str(n)` for `n ≥ 0`). -/
def natStr (n : ℕ) : List Char :=
  if n = 0 then ['0'] else natStrAux n n

/-- Python `str` of an integer: optional minus sign and decimal digits. -/
def intStr (z : ℤ) : List Char :=
  if z < 0 then '-' :: natStr z.natAbs else natStr z.natAbs

/-- Python `int()` applied to an exact rational: truncation toward zero
(floor for nonnegative values, negated floor of the negation
otherwise). -/
def pyTrunc (q : ℚ) : ℤ :=
  if q < 0 then -⌊-q⌋ else ⌊q⌋

/-- Python `message.startswith(pat)` on character lists. -/
def leadMatch : List Char → List Char → Bool
  | _, [] => true
  | [], _ :: _ => false
  | c :: cs, d :: ds => c = d && leadMatch cs ds

/-- Python dict lookup `d.get(key)` / `d[key]` for an integer-keyed dict
represented as an insertion-ordered association list. -/
def dictGet {α : Type} : List (ℤ × α) → ℤ → Option α
  | [], _ => none
  | (k', v) :: rest, k => if k' = k then some v else dictGet rest k

/-- Python dict assignment `d[key] = v`: replace in place when the key
exists (keeping its position), append otherwise. -/
def dictSet {α : Type} : List (ℤ × α) → ℤ → α → List (ℤ × α)
  | [], k, v => [(k, v)]
  | (k', v') :: rest, k, v =>
    if k' = k then (k, v) :: rest else (k', v') :: dictSet rest k v

end Bartleby

namespace Bartleby.Midi

/-! ## `midi.py`: constants, the MPE channel allocator, CC configuration -/

/-- `Constants.MPE_MASTER_CHANNEL` from `midi.py`. -/
def MPE_MASTER_CHANNEL : ℕ := 0

/-- `Constants.MPE_ZONE_START` from `midi.py`. -/
def MPE_ZONE_START : ℕ := 1

/-- `Constants.MPE_ZONE_END` from `midi.py` (the source sets it to 11). -/
def MPE_ZONE_END : ℕ := 11

/-- `Constants.MAX_ACTIVE_NOTES` from `midi.py`. -/
def MAX_ACTIVE_NOTES : ℕ := 14

/-- `Constants.PITCH_BEND_CENTER` from `midi.py`. -/
def PITCH_BEND_CENTER : ℕ := 8192

/-- `Constants.PITCH_BEND_MAX` from `midi.py`. -/
def PITCH_BEND_MAX : ℕ := 16383

/-- `Constants.DEFAULT_CC_ASSIGNMENTS` from `midi.py`. -/
def DEFAULT_CC_ASSIGNMENTS : List (ℤ × ℤ) :=
  [(0, 74), (1, 71), (2, 73), (3, 75), (4, 76), (5, 72), (6, 7), (7, 1),
   (8, 20), (9, 21), (10, 22), (11, 23), (12, 24), (13, 25)]

/-- `NoteState` from `midi.py`.  The `timestamp` field (a wall-clock
reading unused by the modelled operations) is omitted. -/
structure NoteState where
  key_id : ℤ
  midi_note : ℤ
  channel : ℕ
  velocity : ℤ
  left_pressure : ℚ
  right_pressure : ℚ
  pitch_bend : ℕ
  active : Bool
deriving DecidableEq, Repr

/-- `NoteState.__init__`: a freshly created note is active, with zero
pressures and centred pitch bend. -/
def NoteState.init (key note : ℤ) (channel : ℕ) (vel : ℤ) : NoteState :=
  ⟨key, note, channel, vel, 0, 0, PITCH_BEND_CENTER, true⟩

/-- State of `MPEChannelManager`: `active_notes` is a Python dict,
`note_queue` a deque with `maxlen = MAX_ACTIVE_NOTES`, and
`available_channels` a list popped from the front. -/
structure MPEChannelManager where
  active_notes : List (ℤ × NoteState)
  note_queue : List ℤ
  available_channels : List ℕ
deriving DecidableEq, Repr

/-- Append to a deque with `maxlen = MAX_ACTIVE_NOTES`: when full, the
leftmost element is evicted. -/
def pushQueue (q : List ℤ) (k : ℤ) : List ℤ :=
  if q.length < MAX_ACTIVE_NOTES then q ++ [k] else q.tail ++ [k]

/-- `MPEChannelManager.__init__`: empty note map and queue,
`available_channels = list(range(MPE_ZONE_START, MPE_ZONE_END + 1))`. -/
def initManager : MPEChannelManager :=
  ⟨[], [], List.range' MPE_ZONE_START MPE_ZONE_END⟩

/-- `MPEChannelManager._release_note`: mark the note inactive (it is not
deleted) and append its channel to `available_channels` unless the
channel is already there. -/
def releaseNote (s : MPEChannelManager) (k : ℤ) : MPEChannelManager :=
  match dictGet s.active_notes k with
  | none => s
  | some ns =>
    let m' := dictSet s.active_notes k { ns with active := false }
    if ns.channel ∈ s.available_channels then
      { s with active_notes := m' }
    else
      { s with active_notes := m',
               available_channels := s.available_channels ++ [ns.channel] }

/-- Channel source in `allocate_channel` when the key has no active note:
pop the front of `available_channels`; otherwise steal from the oldest
queued note (`popleft`, read its channel, `_release_note` it, hand the
channel to the caller); otherwise fall back to `MPE_ZONE_START`.  The
`none` result models the `KeyError` Python would raise if the queued key
were absent from `active_notes`. -/
def allocFresh (s : MPEChannelManager) : Option (ℕ × MPEChannelManager) :=
  match s.available_channels with
  | c :: rest => some (c, { s with available_channels := rest })
  | [] =>
    match s.note_queue with
    | oldest :: qrest =>
      match dictGet s.active_notes oldest with
      | some ns => some (ns.channel, releaseNote { s with note_queue := qrest } oldest)
      | none => none
    | [] => some (MPE_ZONE_START, s)

/-- `MPEChannelManager.allocate_channel`: an active note for the key
keeps its channel; otherwise a fresh channel is obtained via
`allocFresh`. -/
def allocateChannel (s : MPEChannelManager) (k : ℤ) : Option (ℕ × MPEChannelManager) :=
  match dictGet s.active_notes k with
  | some ns => if ns.active then some (ns.channel, s) else allocFresh s
  | none => allocFresh s

/-- `MPEChannelManager.add_note`: store a fresh active `NoteState` under
the key and append the key to the eviction queue. -/
def addNote (s : MPEChannelManager) (k note : ℤ) (channel : ℕ) (vel : ℤ) : MPEChannelManager :=
  { s with active_notes := dictSet s.active_notes k (NoteState.init k note channel vel),
           note_queue := pushQueue s.note_queue k }

/-- `MPEChannelManager.get_active_notes`. -/
def getActiveNotes (s : MPEChannelManager) : List NoteState :=
  (s.active_notes.filter (fun p => p.2.active)).map (fun p => p.2)

/-- Number of currently active notes. -/
def countActive (s : MPEChannelManager) : ℕ :=
  (s.active_notes.filter (fun p => p.2.active)).length

/-- Whether a note-on for this key would create a new note (no currently
active note for the key). -/
def noteOnIsNew (s : MPEChannelManager) (k : ℤ) : Bool :=
  match dictGet s.active_notes k with
  | some ns => !ns.active
  | none => true

/-- Calls into the allocator, at the granularity used by every call site
in the repository: a note-on performs `allocate_channel` immediately
followed by `add_note` with the returned channel, and a release performs
`release_note`. -/
inductive MPEOp where
  | noteOn (key note vel : ℤ)
  | release (key : ℤ)
deriving DecidableEq, Repr

/-- Execute one allocator call. -/
def runOp (s : MPEChannelManager) : MPEOp → Option MPEChannelManager
  | .noteOn k note vel =>
    (allocateChannel s k).map (fun p => addNote p.2 k note p.1 vel)
  | .release k => some (releaseNote s k)

/-- Execute a sequence of allocator calls. -/
def runOps : MPEChannelManager → List MPEOp → Option MPEChannelManager
  | s, [] => some s
  | s, op :: rest =>
    match runOp s op with
    | some s' => runOps s' rest
    | none => none

/-- A run is bounded by the pool capacity when every note-on that creates
a new note happens while fewer notes are active than the pool holds
channels. -/
def boundedRun : MPEChannelManager → List MPEOp → Bool
  | _, [] => true
  | s, op :: rest =>
    (match op with
     | .noteOn k _ _ => !noteOnIsNew s k || decide (countActive s < MPE_ZONE_END)
     | .release _ => true) &&
    (match runOp s op with
     | some s' => boundedRun s' rest
     | none => false)

/-- A capacity-bounded call sequence on which the allocator violates the
channel-exclusivity invariant: key 1 is released a second time after its
channel has been handed to key 12 (`_release_note` then re-appends
channel 1 to the available list), after which key 13 is put on channel 1
while key 12 still holds it. -/
def ceOps : List MPEOp :=
  [.noteOn 1 60 100, .release 1,
   .noteOn 2 61 100, .noteOn 3 62 100, .noteOn 4 63 100, .noteOn 5 64 100,
   .noteOn 6 65 100, .noteOn 7 66 100, .noteOn 8 67 100, .noteOn 9 68 100,
   .noteOn 10 69 100, .noteOn 11 70 100,
   .noteOn 12 71 100,
   .release 1, .release 2,
   .noteOn 13 72 100]

/-- Call sequence that exhausts the 11-channel pool with keys 1..11. -/
def exhaustOps : List MPEOp :=
  (List.range' 1 11).map (fun k => MPEOp.noteOn (k : ℤ) 60 100)

/-- Allocator transitions restricted as every call site of the repository
restricts them: a note-on pairs `allocate_channel` with `add_note` on the
returned channel, a release is only issued for a key whose note is
currently active, and (capacity bound) a note-on that creates a new note
only happens while fewer than `MPE_ZONE_END` notes are active. -/
inductive Step : MPEChannelManager → MPEChannelManager → Prop where
  | noteOn (s : MPEChannelManager) (k note vel : ℤ) (c : ℕ) (s₁ : MPEChannelManager)
      (halloc : allocateChannel s k = some (c, s₁))
      (hbound : noteOnIsNew s k = true → countActive s < MPE_ZONE_END) :
      Step s (addNote s₁ k note c vel)
  | release (s : MPEChannelManager) (k : ℤ) (ns : NoteState)
      (hns : dictGet s.active_notes k = some ns) (hact : ns.active = true) :
      Step s (releaseNote s k)

/-- States reachable from a fresh `MPEChannelManager` by the restricted
call sequences. -/
def Reachable (s : MPEChannelManager) : Prop :=
  Relation.ReflTransGen Step initManager s

/-- The channel pool the allocator is seeded with. -/
def pool : List ℕ := List.range' MPE_ZONE_START MPE_ZONE_END

/-- Multiplicity of a channel in the available list. -/
def availCount (s : MPEChannelManager) (c : ℕ) : ℕ :=
  s.available_channels.count c

/-- Number of active notes holding a given channel. -/
def activeChanCount (s : MPEChannelManager) (c : ℕ) : ℕ :=
  (s.active_notes.filter (fun p => p.2.active && p.2.channel == c)).length

/-- Allocator invariant: note keys are distinct, every pool channel has
exactly one owner (the available list or one active note) while channels
outside the pool have none, and the available channels and active notes
together always account for the whole pool. -/
structure Inv (s : MPEChannelManager) : Prop where
  keys_nodup : (s.active_notes.map Prod.fst).Nodup
  owners : ∀ c : ℕ, availCount s c + activeChanCount s c = if c ∈ pool then 1 else 0
  count_sum : s.available_channels.length + countActive s = MPE_ZONE_END

/-- `CCConfigManager.get_cc_for_pot`: fall back to the pot number itself
when the pot has no assignment. -/
def getCCForPot (assignments : List (ℤ × ℤ)) (pot : ℤ) : ℤ :=
  (dictGet assignments pot).getD pot

/-- Loop body of `CCConfigManager.parse_config_message`: assignments
without `'='` are skipped; an assignment that splits into other than two
parts, or whose fields are not integers, raises `ValueError`, which the
surrounding `try` turns into `(False, mapping-so-far)`; in-range
assignments are stored, out-of-range ones silently ignored. -/
def parseConfigAssignments : List (List Char) → List (ℤ × ℤ) → Bool × List (ℤ × ℤ)
  | [], m => (true, m)
  | a :: rest, m =>
    if '=' ∈ a then
      match a.splitOn '=' with
      | [pot, cc] =>
        match pyInt pot, pyInt cc with
        | some p, some c =>
          if 0 ≤ p ∧ p ≤ 13 ∧ 0 ≤ c ∧ c ≤ 127 then
            parseConfigAssignments rest (dictSet m p c)
          else parseConfigAssignments rest m
        | _, _ => (false, m)
      | _ => (false, m)
    else parseConfigAssignments rest m

/-- `CCConfigManager.parse_config_message`: returns the success flag and
the updated assignment dict. -/
def parseConfigMessage (msg : List Char) (m : List (ℤ × ℤ)) : Bool × List (ℤ × ℤ) :=
  if leadMatch msg ("cc:".toList) then
    parseConfigAssignments ((msg.drop 3).splitOn ',') m
  else (false, m)

/-- MIDI events produced by `midi.py` (tuples in the source). -/
inductive Event where
  | pitch_bend_init (key : ℤ) (left right : ℚ)
  | pressure_init (key : ℤ) (pressure : ℚ)
  | note_on (note vel key : ℤ)
  | note_off (note vel key : ℤ)
  | pressure_update (key : ℤ) (left right : ℚ)
  | control_change (cc : ℤ) (midi_value : ℤ) (raw : ℚ)
deriving DecidableEq, Repr

/-- `MidiControlProcessor.process_pot_changes`: each changed pot becomes
a `control_change` event carrying the configured (or fallback) CC number
and the scaled value. -/
def processPotChanges (assignments : List (ℤ × ℤ)) (changed : List (ℤ × ℚ × ℚ)) :
    List Event :=
  changed.map (fun c =>
    Event.control_change (getCCForPot assignments c.1) (pyTrunc (c.2.2 * 127)) c.2.2)

/-- `MPENoteProcessor.handle_octave_shift` from `midi.py` (the two-sensor
variant): clamp to ±2 and re-articulate every active note.  The result of
`self.channel_manager.get_active_notes()` is passed as a parameter. -/
def handleOctaveShiftM (activeNotes : List NoteState) (base octv dir : ℤ) :
    ℤ × List Event :=
  let newOct := max (-2) (min 2 (octv + dir))
  if newOct ≠ octv then
    (newOct, activeNotes.flatMap (fun ns =>
      [Event.pitch_bend_init ns.key_id ns.left_pressure ns.right_pressure,
       Event.pressure_init ns.key_id ((ns.left_pressure + ns.right_pressure) / 2),
       Event.note_off ns.midi_note 0 ns.key_id,
       Event.note_on (base + newOct * 12 + ns.key_id) ns.velocity ns.key_id] ++
      (if ns.active ∧ (0 < ns.left_pressure ∨ 0 < ns.right_pressure) then
        [Event.pressure_update ns.key_id ns.left_pressure ns.right_pressure]
      else [])))
  else (octv, [])

end Bartleby.Midi

namespace Bartleby.Notes

/-! ## `notes.py`: note lifecycle and the release-velocity estimator

`notes.py` imports `VELOCITY_DELAY`, `PRESSURE_HISTORY_SIZE`,
`RELEASE_VELOCITY_THRESHOLD` and friends from a `constants` module that
is not part of the sources; the threshold therefore stays a parameter of
the model, constrained per theorem only as far as the specification
constrains it.
-/

/-- `NoteState` from `notes.py`.  Fields unused by the modelled
operations (`timestamp`, `activation_time`, `timbre`,
`initial_position`) are omitted. -/
structure NoteState where
  key_id : ℤ
  midi_note : ℤ
  channel : ℕ
  velocity : ℤ
  pressure : ℚ
  pitch_bend : ℚ
  active : Bool
  pressure_history : List ℚ
  pressure_timestamps : List ℚ
deriving DecidableEq, Repr

/-- Accumulation loop of `calculate_release_velocity`: walk consecutive
sample pairs (the index starts at 1), skip pairs with non-positive time
delta, and return the pair of `total_weighted_rate` and `total_weight`. -/
def rateAccum : ℕ → List ℚ → List ℚ → ℚ × ℚ
  | i, p0 :: p1 :: ps, t0 :: t1 :: ts =>
    let rest := rateAccum (i + 1) (p1 :: ps) (t1 :: ts)
    if 0 < t1 - t0 then
      (|p1 - p0| / (t1 - t0) * (1 / ((i : ℚ) * (1 / 2))) + rest.1,
       1 / ((i : ℚ) * (1 / 2)) + rest.2)
    else rest
  | _, _, _ => (0, 0)

/-- `NoteState.calculate_release_velocity`, as a function of the
threshold constant, the pressure history and the parallel timestamps:
fewer than two samples yield 0; a zero total weight yields 0; a weighted
average decay rate below the threshold yields 0; otherwise
`min(127, int(avg_decay_rate * 32))`. -/
def calculateReleaseVelocity (thr : ℚ) (hist times : List ℚ) : ℤ :=
  if hist.length < 2 then 0
  else
    let acc := rateAccum 1 hist times
    if acc.2 = 0 then 0
    else
      let avg := acc.1 / acc.2
      if avg < thr then 0
      else min 127 (Bartleby.pyTrunc (avg * 32))

/-- Modelled from the spec: the release-velocity formula exactly as the
specification words it, with no time-delta guard and final rounding to
the nearest integer (`min(127, round(avg_rate * 32))`). -/
def specRateAccum : ℕ → List ℚ → List ℚ → ℚ × ℚ
  | i, p0 :: p1 :: ps, t0 :: t1 :: ts =>
    let rest := specRateAccum (i + 1) (p1 :: ps) (t1 :: ts)
    (|p1 - p0| / (t1 - t0) * (1 / ((i : ℚ) * (1 / 2))) + rest.1,
     1 / ((i : ℚ) * (1 / 2)) + rest.2)
  | _, _, _ => (0, 0)

/-- Modelled from the spec: release velocity as the claim words it,
rounding `avg_rate * 32` to the nearest integer. -/
def releaseVelocitySpecRound (thr : ℚ) (hist times : List ℚ) : ℤ :=
  if hist.length < 2 then 0
  else
    let acc := specRateAccum 1 hist times
    let avg := acc.1 / acc.2
    if avg < thr then 0
    else min 127 (round (avg * 32))

/-- Release velocity as the claim words it but with Python's `int()`
truncation in place of rounding (the amended formula). -/
def releaseVelocitySpecTrunc (thr : ℚ) (hist times : List ℚ) : ℤ :=
  if hist.length < 2 then 0
  else
    let acc := specRateAccum 1 hist times
    let avg := acc.1 / acc.2
    if avg < thr then 0
    else min 127 (Bartleby.pyTrunc (avg * 32))

/-- MIDI events produced by `notes.py` (tuples in the source). -/
inductive Event where
  | pressure_init (key : ℤ) (pressure : ℚ)
  | pitch_bend_init (key : ℤ) (position : ℚ)
  | note_on (note vel key : ℤ)
  | note_off (note vel key : ℤ)
  | pressure_update (key : ℤ) (pressure : ℚ)
  | pitch_bend_update (key : ℤ) (position : ℚ)
deriving DecidableEq, Repr

/-- `MPENoteProcessor.handle_octave_shift` from `notes.py`: clamp to ±3
(the source comment records the change from ±2 to ±3) and re-articulate
every active note.  The result of
`self.channel_manager.get_active_notes()` is passed as a parameter. -/
def handleOctaveShift (activeNotes : List NoteState) (base octv dir : ℤ) :
    ℤ × List Event :=
  let newOct := max (-3) (min 3 (octv + dir))
  if newOct ≠ octv then
    (newOct, activeNotes.flatMap (fun ns =>
      let position := (ns.pitch_bend - 8192) / (16383 / 2 : ℚ)
      [Event.pressure_init ns.key_id ns.pressure,
       Event.pitch_bend_init ns.key_id position,
       Event.note_off ns.midi_note 0 ns.key_id,
       Event.note_on (base + newOct * 12 + ns.key_id) ns.velocity ns.key_id] ++
      (if ns.active ∧ 0 < ns.pressure then
        [Event.pressure_update ns.key_id ns.pressure,
         Event.pitch_bend_update ns.key_id position]
      else [])))
  else (octv, [])

end Bartleby.Notes

namespace Bartleby.Code

/-! ## `code.py`: the connection state machine and its CC-config parser -/

/-- `Constants.COMMUNICATION_TIMEOUT` of `code.py` in nanoseconds (the
state machine compares `monotonic_ns` differences against
`5.0 * 1_000_000_000`). -/
def COMMUNICATION_TIMEOUT_NS : ℤ := 5000000000

/-- `Constants.HANDSHAKE_CC` from `code.py`. -/
def HANDSHAKE_CC : ℕ := 119

/-- `Constants.HANDSHAKE_VALUE` from `code.py`. -/
def HANDSHAKE_VALUE : ℕ := 42

/-- The three-byte handshake Control Change sent by
`_send_handshake_cc`. -/
def handshakeCCMessage : List ℕ := [0xB0, HANDSHAKE_CC, HANDSHAKE_VALUE]

/-- One entry of `cc_mapping`: the inner
`{'cc': cc_number, 'name': cc_name}` dict. -/
structure CCEntry where
  cc : ℤ
  name : List Char
deriving DecidableEq, Repr

/-- `cc_mapping`, a pot-indexed Python dict. -/
abbrev CCMapping : Type := List (ℤ × CCEntry)

/-- `_parse_cc_config` body for one assignment: split on `'='` into
exactly two parts, split the remainder on `':'` into exactly two parts
when it contains `':'` (defaulting the name to `"CC" + rest` otherwise),
then parse both integers; any `ValueError` skips just this assignment. -/
def parseCCAssignment (a : List Char) : Option (ℤ × CCEntry) :=
  match a.splitOn '=' with
  | [potPart, rest] =>
    match (if ':' ∈ rest then
             match rest.splitOn ':' with
             | [c, n] => some (c, n)
             | _ => none
           else some (rest, 'C' :: 'C' :: rest)) with
    | some (ccPart, name) =>
      match Bartleby.pyInt potPart, Bartleby.pyInt ccPart with
      | some p, some c => some (p, ⟨c, name⟩)
      | _, _ => none
    | none => none
  | _ => none

/-- Assignment loop of `_parse_cc_config`: empty assignments are skipped,
malformed assignments are skipped, parsed assignments are stored. -/
def applyAssignments : List (List Char) → CCMapping → CCMapping
  | [], m => m
  | a :: rest, m =>
    if a = [] then applyAssignments rest m
    else
      match parseCCAssignment a with
      | some pe => applyAssignments rest (Bartleby.dictSet m pe.1 pe.2)
      | none => applyAssignments rest m

/-- `BartlebyConnectionManager._parse_cc_config`: clear the mapping,
drop the `"cc:"` prefix, return early if nothing remains, otherwise
split on `','` and apply each assignment best-effort. -/
def parseCCConfig (message : List Char) : CCMapping :=
  let config := message.drop 3
  if config = [] then []
  else applyAssignments (config.splitOn ',') []

/-- One serialized assignment, `"{0}={1}:{2}".format(pot, cc, name)`. -/
def serializeEntry (p : ℤ × CCEntry) : List Char :=
  Bartleby.intStr p.1 ++ '=' :: (Bartleby.intStr p.2.cc ++ ':' :: p.2.name)

/-- Serialization used by `_send_current_hw_state`:
`"cc:" + ",".join(pot=cc:name)`. -/
def serializeCCMapping (m : CCMapping) : List Char :=
  "cc:".toList ++ List.intercalate [','] (m.map serializeEntry)

/-- Connection states of `BartlebyConnectionManager`. -/
inductive ConnState where
  | standalone
  | handshaking
  | connected
deriving DecidableEq, Repr

/-- Mutable state of `BartlebyConnectionManager`. -/
structure ConnectionManager where
  state : ConnState
  last_message_time : ℤ
  config_received : Bool
  cc_mapping : CCMapping
deriving DecidableEq, Repr

/-- `BartlebyConnectionManager.__init__`. -/
def initConn : ConnectionManager :=
  ⟨ConnState.standalone, 0, false, []⟩

/-- Externally visible actions of the connection manager.  Pushing the
hardware snapshot (`_send_current_hw_state`) reads pots and encoders and
re-sends the mapping; its internals touch only external collaborators and
are represented by the single `hwSnapshotPush` action, except for the
forwarding of a config message to the MIDI side, which is
`midiConfigForward`. -/
inductive Effect where
  | flushBuffers
  | sendMidi (msg : List ℕ)
  | hwSnapshotPush
  | midiConfigForward (msg : List Char)
deriving DecidableEq, Repr

/-- `BartlebyConnectionManager._reset_state`. -/
def resetState (s : ConnectionManager) : ConnectionManager :=
  { s with state := ConnState.standalone, config_received := false,
           last_message_time := 0, cc_mapping := [] }

/-- `BartlebyConnectionManager.update_state`: outside `Standalone`, a
gap since the last message strictly greater than the communication
timeout forces a reset (which also flushes the transport buffers). -/
def updateState (now : ℤ) (s : ConnectionManager) : ConnectionManager × List Effect :=
  if s.state ≠ ConnState.standalone ∧
      COMMUNICATION_TIMEOUT_NS < now - s.last_message_time then
    (resetState s, [Effect.flushBuffers])
  else (s, [])

/-- `BartlebyConnectionManager.handle_message` (with
`_send_handshake_cc` modelled on its success path as emitting the
handshake bytes). -/
def handleMessage (now : ℤ) (s : ConnectionManager) (msg : List Char) :
    ConnectionManager × List Effect :=
  if msg = [] then (s, [])
  else
    let s := { s with last_message_time := now }
    if Bartleby.leadMatch msg ("hello".toList) then
      if s.state = ConnState.standalone then
        ({ s with state := ConnState.handshaking },
         [Effect.flushBuffers, Effect.sendMidi handshakeCCMessage])
      else if s.state = ConnState.handshaking then
        (s, [Effect.sendMidi handshakeCCMessage])
      else (s, [])
    else if s.state = ConnState.handshaking ∧ Bartleby.leadMatch msg ("cc:".toList) then
      ({ s with cc_mapping := parseCCConfig msg, config_received := true,
                state := ConnState.connected },
       [Effect.hwSnapshotPush])
    else if s.state = ConnState.connected ∧ Bartleby.leadMatch msg ("cc:".toList) then
      ({ s with cc_mapping := parseCCConfig msg },
       [Effect.midiConfigForward msg, Effect.hwSnapshotPush])
    else (s, [])

end Bartleby.Code

/-! ## Theorems -/

namespace Bartleby.Midi

/-- C7: the allocator's channel pool at construction.  The code seeds
`available_channels` with `range(1, 12)` — the 11 channels 1..11 — while
its own comments describe the zone end as zero-based MIDI channel 15 and
`MAX_ACTIVE_NOTES = 14` as "matches available MPE channels"; the seeded
pool is not the 14-channel range 1..14 the specification states. -/
theorem pool_seeding_eval :
    initManager.available_channels = [1, 2, 3, 4, 5, 6, 7, 8, 9, 10, 11] ∧
    initManager.available_channels.length = 11 ∧
    MPE_ZONE_END = 11 ∧ MAX_ACTIVE_NOTES = 14 ∧
    initManager.available_channels ≠ List.range' 1 14 := by decide

/-- C2: evaluation of the steal path.  With the pool exhausted by keys
1..11, allocating for new key 12 does steal from the oldest tracked note
(key 1, which is marked inactive) and returns its channel 1 directly to
the caller — but `_release_note` has also appended channel 1 back onto
`available_channels`, contradicting the claim that the stolen channel is
not pushed back onto the available list. -/
theorem steal_pushback_eval :
    ((runOps initManager exhaustOps).bind (fun s => allocateChannel s 12)).map
      (fun p => (p.1, p.2.available_channels,
                 (dictGet p.2.active_notes 1).map NoteState.active,
                 p.2.note_queue)) =
      some (1, [1], some false, [2, 3, 4, 5, 6, 7, 8, 9, 10, 11]) := by decide

/-- C1 counterexample: a call sequence bounded by the pool capacity on
which the invariant fails.  After key 1 is released a second time (its
channel 1 having been reallocated to key 12), channel 1 is simultaneously
in the available list and held by the active note of key 12; one more
note-on then puts keys 12 and 13 on the same channel 1 while both are
active. -/
theorem channel_exclusivity_counterexample :
    boundedRun initManager ceOps = true ∧
    (runOps initManager (ceOps.take 14)).map (fun s =>
        ((dictGet s.active_notes 12).map (fun ns => (ns.active, ns.channel)),
         s.available_channels)) =
      some (some (true, 1), [1]) ∧
    (runOps initManager ceOps).map (fun s =>
        ((dictGet s.active_notes 12).map (fun ns => (ns.active, ns.channel)),
         (dictGet s.active_notes 13).map (fun ns => (ns.active, ns.channel)))) =
      some (some (true, 1), some (true, 1)) := by decide

/-- C4 counterexample: for the message "cc:1=2=3,4=5" the prefix
matches, yet the wrong-arity assignment "1=2=3" raises a `ValueError`
caught only by the outer handler of `parse_config_message`: the parse of
the remaining assignments is aborted (the well-formed "4=5" is not
applied) and the parse reports failure. -/
theorem cc_parse_abort_counterexample :
    Bartleby.leadMatch ("cc:1=2=3,4=5".toList) ("cc:".toList) = true ∧
    parseConfigMessage ("cc:1=2=3,4=5".toList) [] = (false, []) := by decide

/-- C10: a pot index with no entry in the CC assignment table falls back
to the pot index itself, and the resulting pot-change event is a
control-change event whose CC number equals the pot index. -/
theorem pot_fallback (assignments : List (ℤ × ℤ)) (pot : ℤ) (old new : ℚ)
    (h : Bartleby.dictGet assignments pot = none) :
    getCCForPot assignments pot = pot ∧
    processPotChanges assignments [(pot, old, new)] =
      [Event.control_change pot (Bartleby.pyTrunc (new * 127)) new] := by
  have hcc : getCCForPot assignments pot = pot := by
    unfold getCCForPot
    rw [h]
    rfl
  exact ⟨hcc, by simp [processPotChanges, hcc]⟩

/-- C10 witness: pot 20 is unmapped in the default table and its change
event carries CC number 20. -/
theorem pot_fallback_witness :
    Bartleby.dictGet DEFAULT_CC_ASSIGNMENTS 20 = none ∧
    (getCCForPot DEFAULT_CC_ASSIGNMENTS 20 = 20 ∧
     processPotChanges DEFAULT_CC_ASSIGNMENTS [(20, 0, 1 / 2)] =
       [Event.control_change 20 (Bartleby.pyTrunc ((1 / 2 : ℚ) * 127)) (1 / 2)]) :=
  ⟨by decide, pot_fallback DEFAULT_CC_ASSIGNMENTS 20 0 (1 / 2) (by decide)⟩

end Bartleby.Midi

namespace Bartleby.Code

/-- C5: receiving "hello" while Standalone moves the manager to
Handshaking and emits exactly one handshake Control Change; the
subsequent message "cc:0=74:Cutoff,1=71" moves it to Connected, sets the
mapping to pot 0 ↦ (CC 74, "Cutoff") and pot 1 ↦ (CC 71, "CC71") — the
omitted name defaulting to "CC" + ccNumber — and triggers a hardware
snapshot push. -/
theorem handshake_scenario (t₁ t₂ : ℤ) :
    (handleMessage t₁ initConn ("hello".toList)).1.state = ConnState.handshaking ∧
    ((handleMessage t₁ initConn ("hello".toList)).2.filter
        (fun e => e = Effect.sendMidi handshakeCCMessage)).length = 1 ∧
    (handleMessage t₂ (handleMessage t₁ initConn ("hello".toList)).1
        ("cc:0=74:Cutoff,1=71".toList)).1.state = ConnState.connected ∧
    (handleMessage t₂ (handleMessage t₁ initConn ("hello".toList)).1
        ("cc:0=74:Cutoff,1=71".toList)).1.cc_mapping =
      [(0, ⟨74, "Cutoff".toList⟩), (1, ⟨71, "CC71".toList⟩)] ∧
    Effect.hwSnapshotPush ∈
      (handleMessage t₂ (handleMessage t₁ initConn ("hello".toList)).1
        ("cc:0=74:Cutoff,1=71".toList)).2 :=
  ⟨rfl, rfl, rfl, rfl, List.Mem.head _⟩

/-- C6: on any tick outside Standalone where the time since the last
message exceeds the communication timeout, the manager resets to
Standalone with the CC mapping cleared and the transport flushed. -/
theorem timeout_reset (s : ConnectionManager) (now : ℤ)
    (h₁ : s.state ≠ ConnState.standalone)
    (h₂ : COMMUNICATION_TIMEOUT_NS < now - s.last_message_time) :
    (updateState now s).1.state = ConnState.standalone ∧
    (updateState now s).1.cc_mapping = [] ∧
    (updateState now s).2 = [Effect.flushBuffers] := by
  unfold updateState
  rw [if_pos ⟨h₁, h₂⟩]
  exact ⟨rfl, rfl, rfl⟩

/-- C6 witness: a Connected manager that last heard a message at time 1
is reset by a tick at time 6000000002 (one nanosecond past the
timeout). -/
theorem timeout_reset_witness :
    ((⟨ConnState.connected, 1, true, [(0, ⟨74, "Cutoff".toList⟩)]⟩ :
        ConnectionManager).state ≠ ConnState.standalone ∧
      COMMUNICATION_TIMEOUT_NS <
        6000000002 - (⟨ConnState.connected, 1, true, [(0, ⟨74, "Cutoff".toList⟩)]⟩ :
          ConnectionManager).last_message_time) ∧
    ((updateState 6000000002
        (⟨ConnState.connected, 1, true, [(0, ⟨74, "Cutoff".toList⟩)]⟩ :
          ConnectionManager)).1.state = ConnState.standalone ∧
     (updateState 6000000002
        (⟨ConnState.connected, 1, true, [(0, ⟨74, "Cutoff".toList⟩)]⟩ :
          ConnectionManager)).1.cc_mapping = [] ∧
     (updateState 6000000002
        (⟨ConnState.connected, 1, true, [(0, ⟨74, "Cutoff".toList⟩)]⟩ :
          ConnectionManager)).2 = [Effect.flushBuffers]) :=
  ⟨⟨by decide, by decide⟩,
   timeout_reset _ 6000000002 (by decide) (by decide)⟩

end Bartleby.Code

namespace Bartleby.Notes

/-- C3 counterexample: for threshold 1 and the two samples 0.8 → 0.29
over 0.2 s the weighted average rate is 2.55, so the claimed formula
min(127, round(2.55·32)) yields 82, but the code truncates
(`int(avg_decay_rate * 32)`) and returns 81. -/
theorem release_velocity_counterexample :
    calculateReleaseVelocity 1 [4 / 5, 29 / 100] [0, 1 / 5] = 81 ∧
    releaseVelocitySpecRound 1 [4 / 5, 29 / 100] [0, 1 / 5] = 82 ∧
    (81 : ℤ) ≠ 82 := by
  refine ⟨?_, ?_, by decide⟩
  · norm_num [calculateReleaseVelocity, rateAccum, Bartleby.pyTrunc, abs_of_nonneg]
  · norm_num [releaseVelocitySpecRound, specRateAccum, round_eq, abs_of_nonneg]

end Bartleby.Notes

namespace Bartleby.Notes

theorem handleOctaveShift_fst (notes : List NoteState) (base octv dir : ℤ) :
    (handleOctaveShift notes base octv dir).1 = max (-3) (min 3 (octv + dir)) := by
  unfold handleOctaveShift
  dsimp only
  split
  · rfl
  · next h => exact (not_ne_iff.mp h).symm

theorem handleOctaveShift_boundary (notes : List NoteState) (base octv dir : ℤ)
    (h : max (-3) (min 3 (octv + dir)) = octv) :
    handleOctaveShift notes base octv dir = (octv, []) := by
  unfold handleOctaveShift
  dsimp only
  rw [if_neg (not_ne_iff.mpr h)]

theorem handleOctaveShiftM_fst (notes : List Bartleby.Midi.NoteState) (base octv dir : ℤ) :
    (Bartleby.Midi.handleOctaveShiftM notes base octv dir).1 =
      max (-2) (min 2 (octv + dir)) := by
  unfold Bartleby.Midi.handleOctaveShiftM
  dsimp only
  split
  · rfl
  · next h => exact (not_ne_iff.mp h).symm

theorem handleOctaveShiftM_boundary (notes : List Bartleby.Midi.NoteState)
    (base octv dir : ℤ) (h : max (-2) (min 2 (octv + dir)) = octv) :
    Bartleby.Midi.handleOctaveShiftM notes base octv dir = (octv, []) := by
  unfold Bartleby.Midi.handleOctaveShiftM
  dsimp only
  rw [if_neg (not_ne_iff.mpr h)]

/-- C8: both octave-shift implementations keep the octave offset within
the symmetric range −3..+3 (the two-sensor variant in `midi.py` clamps to
±2, which lies inside that range), and every call whose clamped target
equals the current offset — in particular any request to shift past the
boundary while sitting on it — leaves the offset unchanged and returns no
events. -/
theorem octave_shift_clamp :
    (∀ (notes : List NoteState) (base octv dir : ℤ),
      (-3 ≤ (handleOctaveShift notes base octv dir).1 ∧
        (handleOctaveShift notes base octv dir).1 ≤ 3) ∧
      (max (-3) (min 3 (octv + dir)) = octv →
        handleOctaveShift notes base octv dir = (octv, []))) ∧
    (∀ (mnotes : List Bartleby.Midi.NoteState) (base octv dir : ℤ),
      (-3 ≤ (Bartleby.Midi.handleOctaveShiftM mnotes base octv dir).1 ∧
        (Bartleby.Midi.handleOctaveShiftM mnotes base octv dir).1 ≤ 3) ∧
      (-2 ≤ octv → octv ≤ 2 → max (-3) (min 3 (octv + dir)) = octv →
        Bartleby.Midi.handleOctaveShiftM mnotes base octv dir = (octv, []))) := by
  constructor
  · intro notes base octv dir
    refine ⟨?_, handleOctaveShift_boundary notes base octv dir⟩
    rw [handleOctaveShift_fst]
    omega
  · intro mnotes base octv dir
    constructor
    · rw [handleOctaveShiftM_fst]
      omega
    · intro hl hr h3
      exact handleOctaveShiftM_boundary mnotes base octv dir (by omega)

/-- C8 witness: at offset +3 a further up-shift leaves the `notes.py`
processor unchanged with no events; a zero-direction request at offset 2
leaves the `midi.py` processor unchanged with no events. -/
theorem octave_shift_clamp_witness :
    (max (-3) (min 3 ((3 : ℤ) + 1)) = 3 ∧
      handleOctaveShift [] 60 3 1 = (3, [])) ∧
    ((-2 : ℤ) ≤ 2 ∧ (2 : ℤ) ≤ 2 ∧ max (-3) (min 3 ((2 : ℤ) + 0)) = 2 ∧
      Bartleby.Midi.handleOctaveShiftM [] 60 2 0 = (2, [])) :=
  ⟨⟨by decide, (octave_shift_clamp.1 [] 60 3 1).2 (by decide)⟩,
   ⟨by decide, by decide, by decide,
    (octave_shift_clamp.2 [] 60 2 0).2 (by decide) (by decide) (by decide)⟩⟩

end Bartleby.Notes

namespace Bartleby.Notes

theorem rateAccum_eq_spec (hist : List ℚ) : ∀ (i : ℕ) (times : List ℚ),
    times.Chain' (· < ·) → rateAccum i hist times = specRateAccum i hist times := by
  induction hist with
  | nil => intro i times _; cases times <;> rfl
  | cons p0 tl ih =>
    cases tl with
    | nil => intro i times _; cases times <;> rfl
    | cons p1 ps =>
      intro i times h
      match times with
      | [] => rfl
      | [t0] => rfl
      | t0 :: t1 :: ts =>
        have h01 : t0 < t1 := (List.chain'_cons.mp h).1
        have hrest := ih (i + 1) (t1 :: ts) (List.chain'_cons.mp h).2
        simp only [rateAccum, specRateAccum, hrest]
        rw [if_pos (by linarith : (0 : ℚ) < t1 - t0)]

/-- C3 (amended): the release-velocity estimator returns exactly 0 with
fewer than two pressure samples, and over strictly increasing timestamps
it computes the claimed weighted-average formula with Python's `int()`
truncation in place of rounding; in particular two samples dropping from
0.8 to 0.2 over 0.05 s yield velocity 127 for any threshold at most the
resulting rate 12. -/
theorem release_velocity_amended (thr : ℚ) (hist times : List ℚ)
    (hchain : times.Chain' (· < ·)) (hthr : thr ≤ 12) :
    (hist.length < 2 → calculateReleaseVelocity thr hist times = 0) ∧
    calculateReleaseVelocity thr hist times = releaseVelocitySpecTrunc thr hist times ∧
    calculateReleaseVelocity thr [4 / 5, 1 / 5] [0, 1 / 20] = 127 := by
  refine ⟨fun h => by simp [calculateReleaseVelocity, h], ?_, ?_⟩
  · by_cases hlen : hist.length < 2
    · simp [calculateReleaseVelocity, releaseVelocitySpecTrunc, hlen]
    · simp only [calculateReleaseVelocity, releaseVelocitySpecTrunc]
      rw [if_neg hlen, if_neg hlen, rateAccum_eq_spec hist 1 times hchain]
      by_cases htw : (specRateAccum 1 hist times).2 = 0
      · rw [if_pos htw, htw, div_zero]
        split_ifs with h0
        · rfl
        · norm_num [Bartleby.pyTrunc]
      · rw [if_neg htw]
  · have h12 : ¬ ((12 : ℚ) < thr) := not_lt.mpr hthr
    norm_num [calculateReleaseVelocity, rateAccum, Bartleby.pyTrunc, abs_of_nonneg, h12]

end Bartleby.Notes

namespace Bartleby.Notes

/-- C3 witness: with threshold 1 and the two samples 0.8 → 0.2 over
0.05 s (strictly increasing timestamps, threshold at most 12), the code
returns velocity 127. -/
theorem release_velocity_amended_witness :
    List.Chain' (· < ·) ([0, 1 / 20] : List ℚ) ∧ (1 : ℚ) ≤ 12 ∧
    calculateReleaseVelocity 1 [4 / 5, 1 / 5] [0, 1 / 20] = 127 :=
  ⟨by norm_num [List.chain'_cons], by norm_num,
   (release_velocity_amended 1 [4 / 5, 1 / 5] [0, 1 / 20]
      (by norm_num [List.chain'_cons]) (by norm_num)).2.2⟩

end Bartleby.Notes

namespace Bartleby.Code

/-- C4 (amended): the connection manager's CC-config parser is
best-effort per assignment — a malformed assignment (wrong arity or
non-integer fields, that is, one on which `parseCCAssignment` fails) is
skipped without affecting the parse of the sibling assignments, and the
resulting mapping is exactly the fold of the successfully parsed
assignments. -/
theorem applyAssignments_foldl (asgs : List (List Char)) :
    ∀ m : CCMapping,
      applyAssignments asgs m =
        (asgs.filterMap parseCCAssignment).foldl
          (fun acc pe => Bartleby.dictSet acc pe.1 pe.2) m := by
  induction asgs with
  | nil => intro m; rfl
  | cons a rest ih =>
    intro m
    by_cases ha : a = []
    · subst ha
      simp only [applyAssignments, if_pos rfl, List.filterMap_cons]
      have : parseCCAssignment [] = none := by decide
      rw [this]
      exact ih m
    · simp only [applyAssignments, if_neg ha, List.filterMap_cons]
      cases hp : parseCCAssignment a with
      | none => exact ih m
      | some pe => exact ih (Bartleby.dictSet m pe.1 pe.2)

theorem cc_parse_best_effort :
    (∀ (pre post : List (List Char)) (bad : List Char) (m : CCMapping),
      parseCCAssignment bad = none →
      applyAssignments (pre ++ bad :: post) m = applyAssignments (pre ++ post) m) ∧
    (∀ (asgs : List (List Char)) (m : CCMapping),
      applyAssignments asgs m =
        (asgs.filterMap parseCCAssignment).foldl
          (fun acc pe => Bartleby.dictSet acc pe.1 pe.2) m) := by
  refine ⟨?_, fun asgs => applyAssignments_foldl asgs⟩
  intro pre post bad m hbad
  rw [applyAssignments_foldl, applyAssignments_foldl]
  simp [List.filterMap_append, List.filterMap_cons, hbad]

/-- C4 witness: the wrong-arity assignment "1=2=3" parses to nothing and
its presence between two well-formed assignments does not change the
result of the best-effort parse. -/
theorem cc_parse_best_effort_witness :
    parseCCAssignment ("1=2=3".toList) = none ∧
    applyAssignments (["0=74:Cutoff".toList] ++ "1=2=3".toList :: ["1=71".toList]) [] =
      applyAssignments (["0=74:Cutoff".toList] ++ ["1=71".toList]) [] :=
  ⟨by decide,
   cc_parse_best_effort.1 ["0=74:Cutoff".toList] ["1=71".toList]
     ("1=2=3".toList) [] (by decide)⟩

end Bartleby.Code

namespace Bartleby

theorem digitChar_isDigit : ∀ d < 10, (Nat.digitChar d).isDigit = true := by decide

theorem digitChar_val : ∀ d < 10, (Nat.digitChar d).toNat - '0'.toNat = d := by decide

theorem isDigit_no_delim (c : Char) (h : c.isDigit = true) :
    isPySpace c = false ∧ c ≠ '-' ∧ c ≠ '+' ∧ c ≠ '=' ∧ c ≠ ':' ∧ c ≠ ',' := by
  refine ⟨?_, ?_, ?_, ?_, ?_, ?_⟩
  · by_contra hsp
    rw [Bool.not_eq_false] at hsp
    simp only [isPySpace, Bool.or_eq_true, decide_eq_true_eq] at hsp
    rcases hsp with ((h1 | h1) | h1) | h1 <;> subst h1 <;> exact absurd h (by decide)
  all_goals intro heq; subst heq; exact absurd h (by decide)

theorem natStrAux_digits : ∀ (fuel n : ℕ), ∀ c ∈ natStrAux fuel n, c.isDigit = true := by
  intro fuel
  induction fuel with
  | zero => intro n c hc; cases n <;> simp [natStrAux] at hc
  | succ fuel ih =>
    intro n c hc
    cases n with
    | zero => simp [natStrAux] at hc
    | succ n =>
      rw [natStrAux] at hc
      rcases List.mem_append.mp hc with h | h
      · exact ih _ c h
      · rw [List.mem_singleton] at h
        subst h
        exact digitChar_isDigit _ (Nat.mod_lt _ (by norm_num))

theorem natStrAux_foldl : ∀ (fuel n : ℕ), n ≤ fuel → ∀ a : ℕ,
    (natStrAux fuel n).foldl (fun a c => 10 * a + (c.toNat - '0'.toNat)) a =
      a * 10 ^ (natStrAux fuel n).length + n := by
  intro fuel
  induction fuel with
  | zero =>
    intro n hn a
    interval_cases n
    simp [natStrAux]
  | succ fuel ih =>
    intro n hn a
    cases n with
    | zero => simp [natStrAux]
    | succ n =>
      have hdiv : (n + 1) / 10 ≤ fuel := by
        have := Nat.div_lt_self (Nat.succ_pos n) (by norm_num : 1 < 10)
        omega
      rw [natStrAux, List.foldl_append, List.length_append, ih _ hdiv]
      simp only [List.foldl_cons, List.foldl_nil, List.length_cons, List.length_nil]
      rw [digitChar_val _ (Nat.mod_lt _ (by norm_num)), pow_succ, ← mul_assoc]
      generalize a * 10 ^ (natStrAux fuel ((n + 1) / 10)).length = P
      omega

theorem natStr_ne_nil (n : ℕ) : natStr n ≠ [] := by
  unfold natStr
  split
  · simp
  · next h =>
    cases n with
    | zero => exact absurd rfl h
    | succ n => rw [natStrAux]; simp

theorem natStr_digits (n : ℕ) : ∀ c ∈ natStr n, c.isDigit = true := by
  unfold natStr
  split
  · intro c hc
    rw [List.mem_singleton] at hc
    subst hc
    decide
  · intro c hc
    exact natStrAux_digits _ _ c hc

theorem digitsVal_natStr (n : ℕ) : digitsVal (natStr n) = some n := by
  unfold digitsVal
  rw [if_pos ⟨natStr_ne_nil n, fun c hc => natStr_digits n c hc⟩]
  congr 1
  unfold natStr
  split
  · next h => subst h; decide
  · next h =>
    cases n with
    | zero => exact absurd rfl h
    | succ n => simpa using natStrAux_foldl (n + 1) (n + 1) le_rfl 0

theorem dropWhile_of_none (p : Char → Bool) (s : List Char)
    (h : ∀ c ∈ s, p c = false) : s.dropWhile p = s := by
  cases s with
  | nil => rfl
  | cons c cs =>
    rw [List.dropWhile_cons, if_neg]
    simp [h c (List.mem_cons_self c cs)]

theorem pyStrip_eq_self (s : List Char) (h : ∀ c ∈ s, isPySpace c = false) :
    pyStrip s = s := by
  unfold pyStrip
  rw [dropWhile_of_none _ s h,
      dropWhile_of_none _ _ (fun c hc => h c (List.mem_reverse.mp hc)),
      List.reverse_reverse]

theorem pyInt_natStr (n : ℕ) : pyInt (natStr n) = some (n : ℤ) := by
  have hdig := natStr_digits n
  have hstrip := pyStrip_eq_self (natStr n)
    (fun c hc => (isDigit_no_delim c (hdig c hc)).1)
  obtain ⟨c, cs, hcons⟩ : ∃ c cs, natStr n = c :: cs := by
    cases hx : natStr n with
    | nil => exact absurd hx (natStr_ne_nil n)
    | cons c cs => exact ⟨c, cs, rfl⟩
  have hcdig : c.isDigit = true := hdig c (by rw [hcons]; exact List.mem_cons_self c cs)
  unfold pyInt
  rw [hstrip, hcons]
  dsimp only
  rw [if_neg (isDigit_no_delim c hcdig).2.1,
      if_neg (isDigit_no_delim c hcdig).2.2.1,
      ← hcons, digitsVal_natStr]
  rfl

theorem pyInt_intStr (z : ℤ) : pyInt (intStr z) = some z := by
  unfold intStr
  split
  · next hneg =>
    have hdig := natStr_digits z.natAbs
    have hnospace : ∀ c ∈ ('-' :: natStr z.natAbs), isPySpace c = false := by
      intro c hc
      rcases List.mem_cons.mp hc with h | h
      · subst h; decide
      · exact (isDigit_no_delim c (hdig c h)).1
    unfold pyInt
    rw [pyStrip_eq_self _ hnospace]
    dsimp only
    rw [if_pos rfl, digitsVal_natStr]
    show some (-(z.natAbs : ℤ)) = some z
    congr 1
    omega
  · next hpos =>
    rw [pyInt_natStr]
    congr 1
    omega

theorem intStr_no_delim (z : ℤ) : ∀ c ∈ intStr z, c ≠ '=' ∧ c ≠ ':' ∧ c ≠ ',' := by
  intro c hc
  have hdigit : c.isDigit = true ∨ c = '-' := by
    unfold intStr at hc
    split at hc
    · rcases List.mem_cons.mp hc with h | h
      · exact Or.inr h
      · exact Or.inl (natStr_digits _ c h)
    · exact Or.inl (natStr_digits _ c hc)
  rcases hdigit with h | h
  · have hd := isDigit_no_delim c h
    exact ⟨hd.2.2.2.1, hd.2.2.2.2.1, hd.2.2.2.2.2⟩
  · subst h
    exact ⟨by decide, by decide, by decide⟩

end Bartleby

namespace Bartleby.Code

theorem parse_serializeEntry (p : ℤ × CCEntry)
    (hname : ∀ c ∈ p.2.name, c ≠ ',' ∧ c ≠ '=' ∧ c ≠ ':') :
    parseCCAssignment (serializeEntry p) = some p := by
  have hrest_ne : ∀ c ∈ Bartleby.intStr p.2.cc ++ ':' :: p.2.name, c ≠ '=' := by
    intro c hc
    rcases List.mem_append.mp hc with h | h
    · exact (Bartleby.intStr_no_delim _ c h).1
    · rcases List.mem_cons.mp h with h | h
      · subst h; decide
      · exact (hname c h).2.1
  have hsplit1 : (serializeEntry p).splitOn '=' =
      [Bartleby.intStr p.1, Bartleby.intStr p.2.cc ++ ':' :: p.2.name] := by
    unfold serializeEntry
    simp only [List.splitOn]
    rw [List.splitOnP_first _ _
        (fun x hx => by simp [(Bartleby.intStr_no_delim _ x hx).1]) '='
        (by simp) _]
    congr 1
    exact List.splitOnP_eq_single _ _ (fun x hx => by simp [hrest_ne x hx])
  have hmem : ':' ∈ Bartleby.intStr p.2.cc ++ ':' :: p.2.name :=
    List.mem_append.mpr (Or.inr (List.mem_cons_self _ _))
  have hsplit2 : (Bartleby.intStr p.2.cc ++ ':' :: p.2.name).splitOn ':' =
      [Bartleby.intStr p.2.cc, p.2.name] := by
    simp only [List.splitOn]
    rw [List.splitOnP_first _ _
        (fun x hx => by simp [(Bartleby.intStr_no_delim _ x hx).2.1]) ':'
        (by simp) _]
    congr 1
    exact List.splitOnP_eq_single _ _ (fun x hx => by simp [(hname x hx).2.2])
  unfold parseCCAssignment
  rw [hsplit1]
  dsimp only
  rw [if_pos hmem, hsplit2]
  dsimp only
  rw [Bartleby.pyInt_intStr, Bartleby.pyInt_intStr]

theorem filterMap_parse_serialize (m : CCMapping)
    (hnames : ∀ e ∈ m, ∀ c ∈ e.2.name, c ≠ ',' ∧ c ≠ '=' ∧ c ≠ ':') :
    (m.map serializeEntry).filterMap parseCCAssignment = m := by
  induction m with
  | nil => rfl
  | cons e rest ih =>
    simp only [List.map_cons, List.filterMap_cons]
    rw [parse_serializeEntry e (hnames e (List.mem_cons_self e rest))]
    rw [ih (fun e' he' => hnames e' (List.mem_cons_of_mem e he'))]

theorem dictSet_fresh {α : Type} (m : List (ℤ × α)) (k : ℤ) (v : α)
    (h : k ∉ m.map Prod.fst) : Bartleby.dictSet m k v = m ++ [(k, v)] := by
  induction m with
  | nil => rfl
  | cons e rest ih =>
    obtain ⟨k', v'⟩ := e
    simp only [List.map_cons, List.mem_cons, not_or] at h
    unfold Bartleby.dictSet
    rw [if_neg (fun heq => h.1 heq.symm)]
    rw [List.cons_append]
    congr 1
    exact ih h.2

theorem foldl_dictSet {α : Type} (entries : List (ℤ × α)) :
    ∀ acc : List (ℤ × α),
    (∀ k ∈ entries.map Prod.fst, k ∉ acc.map Prod.fst) →
    (entries.map Prod.fst).Nodup →
    entries.foldl (fun ac pe => Bartleby.dictSet ac pe.1 pe.2) acc = acc ++ entries := by
  induction entries with
  | nil => intro acc _ _; simp
  | cons e rest ih =>
    intro acc hdisj hnodup
    simp only [List.map_cons, List.nodup_cons] at hnodup
    simp only [List.foldl_cons]
    rw [dictSet_fresh acc e.1 e.2 (hdisj e.1 (by simp))]
    rw [ih (acc ++ [e]) ?_ hnodup.2]
    · simp
    · intro k hk
      simp only [List.map_append, List.mem_append, not_or]
      refine ⟨hdisj k (List.mem_cons_of_mem _ hk), ?_⟩
      simp only [List.map_cons, List.map_nil, List.mem_singleton]
      intro heq
      subst heq
      exact hnodup.1 hk

/-- C9 counterexample: the mapping pot 0 ↦ (CC 74, name "A:B")
serializes to "cc:0=74:A:B", whose single assignment splits on ':' into
three parts and is skipped, so re-parsing yields the empty mapping rather
than the original one. -/
theorem cc_roundtrip_counterexample :
    parseCCConfig (serializeCCMapping [(0, ⟨74, "A:B".toList⟩)]) = [] ∧
    ([] : CCMapping) ≠ [(0, ⟨74, "A:B".toList⟩)] := by decide

/-- C9 (amended): serializing a CC mapping to the wire form
"cc:" + comma-joined pot=cc:name and re-parsing it with the connection
manager's parser reproduces the original mapping, provided the pot
indices are distinct and no name contains one of the delimiter
characters ',', '=', ':'. -/
theorem cc_roundtrip (m : CCMapping)
    (hkeys : (m.map Prod.fst).Nodup)
    (hnames : ∀ e ∈ m, ∀ c ∈ e.2.name, c ≠ ',' ∧ c ≠ '=' ∧ c ≠ ':') :
    parseCCConfig (serializeCCMapping m) = m := by
  cases m with
  | nil => rfl
  | cons e rest =>
    have hparts_ne : (e :: rest).map serializeEntry ≠ [] := by simp
    have hnocomma : ∀ l ∈ (e :: rest).map serializeEntry, ',' ∉ l := by
      intro l hl
      rcases List.mem_map.mp hl with ⟨p, hp, rfl⟩
      intro hc
      unfold serializeEntry at hc
      rcases List.mem_append.mp hc with h | h
      · exact (Bartleby.intStr_no_delim _ ',' h).2.2 rfl
      · rcases List.mem_cons.mp h with h | h
        · exact absurd h (by decide)
        · rcases List.mem_append.mp h with h | h
          · exact (Bartleby.intStr_no_delim _ ',' h).2.2 rfl
          · rcases List.mem_cons.mp h with h | h
            · exact absurd h (by decide)
            · exact (hnames p hp ',' h).1 rfl
    have hsplit := List.splitOn_intercalate ((e :: rest).map serializeEntry) ','
      hnocomma hparts_ne
    have hdrop : (serializeCCMapping (e :: rest)).drop 3 =
        List.intercalate [','] ((e :: rest).map serializeEntry) := rfl
    have hne : List.intercalate [','] ((e :: rest).map serializeEntry) ≠ [] := by
      intro h
      rw [h, List.splitOn_nil] at hsplit
      simp only [List.map_cons] at hsplit
      have : serializeEntry e = [] := ((List.cons.injEq _ _ _ _).mp hsplit.symm).1
      simp [serializeEntry] at this
    unfold parseCCConfig
    rw [hdrop, if_neg hne, hsplit, applyAssignments_foldl,
        filterMap_parse_serialize (e :: rest) hnames,
        foldl_dictSet (e :: rest) [] (by simp) hkeys]
    simp

/-- C9 witness: the two-entry mapping from the handshake scenario, whose
names contain no delimiter characters, round-trips exactly. -/
theorem cc_roundtrip_witness :
    (([(0, ⟨74, "Cutoff".toList⟩), (1, ⟨71, "CC71".toList⟩)] :
        CCMapping).map Prod.fst).Nodup ∧
    (∀ e ∈ ([(0, ⟨74, "Cutoff".toList⟩), (1, ⟨71, "CC71".toList⟩)] : CCMapping),
      ∀ c ∈ e.2.name, c ≠ ',' ∧ c ≠ '=' ∧ c ≠ ':') ∧
    parseCCConfig (serializeCCMapping
        [(0, ⟨74, "Cutoff".toList⟩), (1, ⟨71, "CC71".toList⟩)]) =
      [(0, ⟨74, "Cutoff".toList⟩), (1, ⟨71, "CC71".toList⟩)] :=
  ⟨by decide, by decide,
   cc_roundtrip [(0, ⟨74, "Cutoff".toList⟩), (1, ⟨71, "CC71".toList⟩)]
     (by decide) (by decide)⟩

end Bartleby.Code

namespace Bartleby

theorem dictGet_none_iff {α : Type} (m : List (ℤ × α)) (k : ℤ) :
    dictGet m k = none ↔ k ∉ m.map Prod.fst := by
  induction m with
  | nil => simp [dictGet]
  | cons e rest ih =>
    obtain ⟨k', v'⟩ := e
    by_cases h : k' = k
    · subst h
      simp [dictGet]
    · unfold dictGet
      rw [if_neg h]
      simp only [List.map_cons, List.mem_cons, not_or, ih]
      constructor
      · intro hk
        exact ⟨fun heq => h heq.symm, hk⟩
      · intro hk
        exact hk.2

theorem dictGet_some_split {α : Type} (m : List (ℤ × α)) (k : ℤ) (v : α)
    (h : dictGet m k = some v) :
    ∃ m₁ m₂, m = m₁ ++ (k, v) :: m₂ ∧ k ∉ m₁.map Prod.fst ∧
      ∀ v' : α, dictSet m k v' = m₁ ++ (k, v') :: m₂ := by
  induction m with
  | nil => simp [dictGet] at h
  | cons e rest ih =>
    obtain ⟨k', w⟩ := e
    by_cases hk : k' = k
    · subst hk
      unfold dictGet at h
      rw [if_pos rfl] at h
      obtain rfl : w = v := by injection h
      refine ⟨[], rest, by simp, by simp, fun v' => ?_⟩
      unfold dictSet
      rw [if_pos rfl]
      rfl
    · unfold dictGet at h
      rw [if_neg hk] at h
      obtain ⟨m₁, m₂, heq, hnot, hset⟩ := ih h
      refine ⟨(k', w) :: m₁, m₂, by rw [heq]; rfl, ?_, fun v' => ?_⟩
      · simp only [List.map_cons, List.mem_cons, not_or]
        exact ⟨fun heq' => hk heq'.symm, hnot⟩
      · unfold dictSet
        rw [if_neg hk, hset v']
        rfl

theorem dictGet_mem {α : Type} (m : List (ℤ × α)) (k : ℤ) (v : α)
    (h : dictGet m k = some v) : (k, v) ∈ m := by
  obtain ⟨m₁, m₂, heq, -, -⟩ := dictGet_some_split m k v h
  rw [heq]
  exact List.mem_append.mpr (Or.inr (List.mem_cons_self _ _))

theorem dictGet_of_mem_nodup {α : Type} (m : List (ℤ × α)) (k : ℤ) (v : α)
    (hnd : (m.map Prod.fst).Nodup) (hm : (k, v) ∈ m) : dictGet m k = some v := by
  induction m with
  | nil => simp at hm
  | cons e rest ih =>
    obtain ⟨k', w⟩ := e
    simp only [List.map_cons, List.nodup_cons] at hnd
    rcases List.mem_cons.mp hm with h | h
    · injection h with h1 h2
      subst h1
      subst h2
      unfold dictGet
      rw [if_pos rfl]
    · have hk : k' ≠ k := by
        intro heq
        subst heq
        exact hnd.1 (List.mem_map.mpr ⟨(k', v), h, rfl⟩)
      unfold dictGet
      rw [if_neg hk]
      exact ih hnd.2 h

theorem two_mem_length {α : Type} (l : List α) (a b : α)
    (ha : a ∈ l) (hb : b ∈ l) (hab : a ≠ b) : 2 ≤ l.length := by
  obtain ⟨l₁, l₂, rfl⟩ := List.append_of_mem ha
  rcases List.mem_append.mp hb with h | h
  · have := List.length_pos_of_mem h
    simp only [List.length_append, List.length_cons]
    omega
  · rcases List.mem_cons.mp h with h | h
    · exact absurd h.symm hab
    · have := List.length_pos_of_mem h
      simp only [List.length_append, List.length_cons]
      omega

theorem filterLen_append {α : Type} (p : α → Bool) (l₁ l₂ : List α) :
    ((l₁ ++ l₂).filter p).length = (l₁.filter p).length + (l₂.filter p).length := by
  rw [List.filter_append, List.length_append]

theorem filterLen_cons {α : Type} (p : α → Bool) (x : α) (l : List α) :
    ((x :: l).filter p).length = (if p x then 1 else 0) + (l.filter p).length := by
  rw [List.filter_cons]
  split
  · simp only [List.length_cons]
    omega
  · simp

end Bartleby

namespace Bartleby

theorem filterLen_middle {α : Type} (p : α → Bool) (l₁ l₂ : List α) (x : α) :
    ((l₁ ++ x :: l₂).filter p).length =
      (l₁.filter p).length + ((if p x then 1 else 0) + (l₂.filter p).length) := by
  rw [filterLen_append, filterLen_cons]

end Bartleby

namespace Bartleby.Midi

theorem inv_init : Inv initManager := by
  refine ⟨by simp [initManager], ?_, by decide⟩
  intro c
  unfold availCount activeChanCount initManager pool
  simp only [List.filter_nil, List.length_nil, Nat.add_zero]
  by_cases hc : c ∈ List.range' MPE_ZONE_START MPE_ZONE_END
  · rw [if_pos hc]
    exact List.count_eq_one_of_mem (List.nodup_range' _ _) hc
  · rw [if_neg hc]
    exact List.count_eq_zero.mpr hc

theorem inv_addNote_existing (s : MPEChannelManager) (k note vel : ℤ) (ns : NoteState)
    (hget : Bartleby.dictGet s.active_notes k = some ns) (hact : ns.active = true)
    (hinv : Inv s) : Inv (addNote s k note ns.channel vel) := by
  obtain ⟨m₁, m₂, hm, -, hset⟩ := Bartleby.dictGet_some_split _ _ _ hget
  unfold addNote
  rw [hset]
  refine ⟨?_, ?_, ?_⟩
  · have h := hinv.keys_nodup
    rw [hm] at h
    simpa using h
  · intro c
    have honc := hinv.owners c
    unfold availCount activeChanCount at honc ⊢
    rw [hm, Bartleby.filterLen_middle] at honc
    rw [Bartleby.filterLen_middle]
    dsimp only
    by_cases hcc : ns.channel = c
    · rw [if_pos (by simp [NoteState.init, hcc])]
      rw [if_pos (by simp [hact, hcc])] at honc
      omega
    · rw [if_neg (by simp [NoteState.init, hcc])]
      rw [if_neg (by simp [hcc])] at honc
      omega
  · have hsum := hinv.count_sum
    unfold countActive at hsum ⊢
    rw [hm, Bartleby.filterLen_middle] at hsum
    rw [Bartleby.filterLen_middle]
    dsimp only
    rw [if_pos hact] at hsum
    rw [if_pos (by simp [NoteState.init])]
    omega

end Bartleby.Midi

namespace Bartleby.Midi

theorem inv_addNote_inactive (s : MPEChannelManager) (k note vel : ℤ) (ns : NoteState)
    (hget : Bartleby.dictGet s.active_notes k = some ns) (hact : ns.active = false)
    (ch : ℕ) (rest : List ℕ) (hav : s.available_channels = ch :: rest)
    (hinv : Inv s) :
    Inv (addNote { s with available_channels := rest } k note ch vel) := by
  obtain ⟨m₁, m₂, hm, -, hset⟩ := Bartleby.dictGet_some_split _ _ _ hget
  unfold addNote
  rw [show ({ s with available_channels := rest } : MPEChannelManager).active_notes
        = s.active_notes from rfl, hset]
  refine ⟨?_, ?_, ?_⟩
  · have h := hinv.keys_nodup
    rw [hm] at h
    simpa using h
  · intro c
    have honc := hinv.owners c
    unfold availCount activeChanCount at honc ⊢
    rw [hm, Bartleby.filterLen_middle, hav, List.count_cons] at honc
    rw [Bartleby.filterLen_middle]
    generalize hR : (if c ∈ pool then (1 : ℕ) else 0) = R at honc ⊢
    by_cases hcc : ch = c
    · subst hcc
      simp [NoteState.init, hact] at honc ⊢
      omega
    · simp [NoteState.init, hact, hcc] at honc ⊢
      omega
  · have hsum := hinv.count_sum
    unfold countActive at hsum ⊢
    rw [hm, Bartleby.filterLen_middle, hav, List.length_cons] at hsum
    rw [Bartleby.filterLen_middle]
    dsimp only
    rw [if_neg (by simp [hact])] at hsum
    rw [if_pos (by simp [NoteState.init])]
    omega

theorem inv_addNote_fresh (s : MPEChannelManager) (k note vel : ℤ)
    (hget : Bartleby.dictGet s.active_notes k = none)
    (ch : ℕ) (rest : List ℕ) (hav : s.available_channels = ch :: rest)
    (hinv : Inv s) :
    Inv (addNote { s with available_channels := rest } k note ch vel) := by
  have hnotkey : k ∉ s.active_notes.map Prod.fst :=
    (Bartleby.dictGet_none_iff _ _).mp hget
  have hset : Bartleby.dictSet s.active_notes k (NoteState.init k note ch vel) =
      s.active_notes ++ [(k, NoteState.init k note ch vel)] :=
    Bartleby.Code.dictSet_fresh _ _ _ hnotkey
  unfold addNote
  rw [show ({ s with available_channels := rest } : MPEChannelManager).active_notes
        = s.active_notes from rfl, hset]
  refine ⟨?_, ?_, ?_⟩
  · simp only [List.map_append, List.map_cons, List.map_nil]
    rw [List.nodup_append]
    exact ⟨hinv.keys_nodup, List.nodup_singleton k,
      fun a ha hb => absurd ((List.mem_singleton.mp hb) ▸ ha) hnotkey⟩
  · intro c
    have honc := hinv.owners c
    unfold availCount activeChanCount at honc ⊢
    rw [hav, List.count_cons] at honc
    rw [Bartleby.filterLen_append, Bartleby.filterLen_cons]
    generalize hR : (if c ∈ pool then (1 : ℕ) else 0) = R at honc ⊢
    by_cases hcc : ch = c
    · subst hcc
      simp [NoteState.init] at honc ⊢
      omega
    · simp [NoteState.init, hcc] at honc ⊢
      omega
  · have hsum := hinv.count_sum
    unfold countActive at hsum ⊢
    rw [hav, List.length_cons] at hsum
    rw [Bartleby.filterLen_append, Bartleby.filterLen_cons]
    dsimp only
    rw [if_pos (by simp [NoteState.init])]
    simp only [List.filter_nil, List.length_nil]
    omega

end Bartleby.Midi

namespace Bartleby.Midi

theorem inv_release (s : MPEChannelManager) (k : ℤ) (ns : NoteState)
    (hns : Bartleby.dictGet s.active_notes k = some ns) (hact : ns.active = true)
    (hinv : Inv s) : Inv (releaseNote s k) := by
  obtain ⟨m₁, m₂, hm, -, hset⟩ := Bartleby.dictGet_some_split _ _ _ hns
  have hact1 : 1 ≤ activeChanCount s ns.channel := by
    unfold activeChanCount
    rw [hm, Bartleby.filterLen_middle, if_pos (by simp [hact])]
    omega
  have howner := hinv.owners ns.channel
  have havail0 : availCount s ns.channel = 0 := by
    by_cases hp : ns.channel ∈ pool
    · rw [if_pos hp] at howner
      omega
    · rw [if_neg hp] at howner
      omega
  have hnotmem : ns.channel ∉ s.available_channels := by
    intro hmem
    have hpos := List.count_pos_iff.mpr hmem
    unfold availCount at havail0
    omega
  unfold releaseNote
  rw [hns]
  dsimp only
  rw [if_neg hnotmem, hset]
  refine ⟨?_, ?_, ?_⟩
  · have h := hinv.keys_nodup
    rw [hm] at h
    simpa using h
  · intro c
    have honc := hinv.owners c
    unfold availCount activeChanCount at honc ⊢
    rw [hm, Bartleby.filterLen_middle] at honc
    rw [Bartleby.filterLen_middle, List.count_append]
    generalize hR : (if c ∈ pool then (1 : ℕ) else 0) = R at honc ⊢
    by_cases hcc : ns.channel = c
    · subst hcc
      simp [hact, List.count_singleton] at honc ⊢
      omega
    · simp [hact, hcc, List.count_singleton] at honc ⊢
      omega
  · have hsum := hinv.count_sum
    unfold countActive at hsum ⊢
    rw [hm, Bartleby.filterLen_middle] at hsum
    rw [Bartleby.filterLen_middle, List.length_append]
    simp [hact] at hsum ⊢
    omega

theorem inv_step (s s' : MPEChannelManager) (hstep : Step s s') (hinv : Inv s) :
    Inv s' := by
  cases hstep with
  | noteOn k note vel c s₁ halloc hbound =>
    unfold allocateChannel at halloc
    cases hget : Bartleby.dictGet s.active_notes k with
    | some ns =>
      rw [hget] at halloc
      dsimp only at halloc
      by_cases hact : ns.active = true
      · rw [if_pos hact] at halloc
        injection halloc with hpair
        injection hpair with hc hs₁
        subst hc
        subst hs₁
        exact inv_addNote_existing s k note vel ns hget hact hinv
      · have hf : ns.active = false := by
          cases hb : ns.active with
          | false => rfl
          | true => exact absurd hb hact
        rw [if_neg hact] at halloc
        have hnew : noteOnIsNew s k = true := by
          unfold noteOnIsNew
          rw [hget]
          simp [hf]
        have hne : s.available_channels ≠ [] := by
          intro hnil
          have hcnt := hbound hnew
          have hsum := hinv.count_sum
          rw [hnil] at hsum
          simp only [List.length_nil, Nat.zero_add] at hsum
          omega
        obtain ⟨ch, rest, hav⟩ : ∃ ch rest, s.available_channels = ch :: rest := by
          cases hx : s.available_channels with
          | nil => exact absurd hx hne
          | cons ch rest => exact ⟨ch, rest, rfl⟩
        unfold allocFresh at halloc
        rw [hav] at halloc
        dsimp only at halloc
        injection halloc with hpair
        injection hpair with hc hs₁
        subst hc
        subst hs₁
        exact inv_addNote_inactive s k note vel ns hget hf ch rest hav hinv
    | none =>
      rw [hget] at halloc
      dsimp only at halloc
      have hnew : noteOnIsNew s k = true := by
        unfold noteOnIsNew
        rw [hget]
      have hne : s.available_channels ≠ [] := by
        intro hnil
        have hcnt := hbound hnew
        have hsum := hinv.count_sum
        rw [hnil] at hsum
        simp only [List.length_nil, Nat.zero_add] at hsum
        omega
      obtain ⟨ch, rest, hav⟩ : ∃ ch rest, s.available_channels = ch :: rest := by
        cases hx : s.available_channels with
        | nil => exact absurd hx hne
        | cons ch rest => exact ⟨ch, rest, rfl⟩
      unfold allocFresh at halloc
      rw [hav] at halloc
      dsimp only at halloc
      injection halloc with hpair
      injection hpair with hc hs₁
      subst hc
      subst hs₁
      exact inv_addNote_fresh s k note vel hget ch rest hav hinv
  | release k ns hns hact =>
    exact inv_release s k ns hns hact hinv

theorem inv_reachable (s : MPEChannelManager) (hs : Reachable s) : Inv s := by
  unfold Reachable at hs
  induction hs with
  | refl => exact inv_init
  | tail hrtg hstep ih => exact inv_step _ _ hstep ih

/-- C1 (amended): along every sequence of allocator calls that pairs
each allocate_channel with the add_note for the returned channel,
releases only currently-active notes, and stays within the pool capacity
(the restrictions every call site of the repository obeys), no two
simultaneously-active notes hold the same channel, and each pool channel
is either in the available list or held by an active note, never both. -/
theorem channel_exclusivity (s : MPEChannelManager) (hs : Reachable s) :
    (∀ k₁ k₂ ns₁ ns₂,
      Bartleby.dictGet s.active_notes k₁ = some ns₁ →
      Bartleby.dictGet s.active_notes k₂ = some ns₂ →
      ns₁.active = true → ns₂.active = true → k₁ ≠ k₂ →
      ns₁.channel ≠ ns₂.channel) ∧
    (∀ c ∈ pool, c ∈ s.available_channels ↔
      ¬ ∃ k ns, Bartleby.dictGet s.active_notes k = some ns ∧
        ns.active = true ∧ ns.channel = c) := by
  have hinv := inv_reachable s hs
  constructor
  · intro k₁ k₂ ns₁ ns₂ h₁ h₂ ha₁ ha₂ hk hch
    have hm₁ : (k₁, ns₁) ∈ s.active_notes.filter
        (fun p => p.2.active && p.2.channel == ns₁.channel) := by
      rw [List.mem_filter]
      exact ⟨Bartleby.dictGet_mem _ _ _ h₁, by simp [ha₁]⟩
    have hm₂ : (k₂, ns₂) ∈ s.active_notes.filter
        (fun p => p.2.active && p.2.channel == ns₁.channel) := by
      rw [List.mem_filter]
      exact ⟨Bartleby.dictGet_mem _ _ _ h₂, by simp [ha₂, hch]⟩
    have hne : ((k₁, ns₁) : ℤ × NoteState) ≠ (k₂, ns₂) :=
      fun h => hk (congrArg Prod.fst h)
    have h2 := Bartleby.two_mem_length _ _ _ hm₁ hm₂ hne
    have howner := hinv.owners ns₁.channel
    unfold activeChanCount at howner
    by_cases hp : ns₁.channel ∈ pool
    · rw [if_pos hp] at howner
      omega
    · rw [if_neg hp] at howner
      omega
  · intro c hcp
    have howner := hinv.owners c
    rw [if_pos hcp] at howner
    constructor
    · rintro hmem ⟨k, ns, hk, ha, hch⟩
      have h1 : 0 < availCount s c := List.count_pos_iff.mpr hmem
      have h2 : 1 ≤ activeChanCount s c := by
        have hmemf : (k, ns) ∈ s.active_notes.filter
            (fun p => p.2.active && p.2.channel == c) := by
          rw [List.mem_filter]
          exact ⟨Bartleby.dictGet_mem _ _ _ hk, by simp [ha, hch]⟩
        unfold activeChanCount
        exact List.length_pos_of_mem hmemf
      omega
    · intro hno
      by_contra hmem
      have h0 : availCount s c = 0 := List.count_eq_zero.mpr hmem
      have hpos : 1 ≤ activeChanCount s c := by omega
      unfold activeChanCount at hpos
      obtain ⟨e, he⟩ : ∃ e, e ∈ s.active_notes.filter
          (fun p => p.2.active && p.2.channel == c) := by
        cases hx : s.active_notes.filter (fun p => p.2.active && p.2.channel == c) with
        | nil =>
          rw [hx] at hpos
          simp at hpos
        | cons e t => exact ⟨e, hx ▸ List.mem_cons_self e t⟩
      rw [List.mem_filter] at he
      have hget : Bartleby.dictGet s.active_notes e.1 = some e.2 :=
        Bartleby.dictGet_of_mem_nodup _ _ _ hinv.keys_nodup he.1
      refine hno ⟨e.1, e.2, hget, ?_, ?_⟩
      · have := he.2
        simp only [Bool.and_eq_true] at this
        exact this.1
      · have := he.2
        simp only [Bool.and_eq_true, beq_iff_eq] at this
        exact this.2

/-- C1 witness: the freshly constructed manager is reachable, and pool
channel 1 is in its available list with no active note holding it. -/
theorem channel_exclusivity_witness :
    Reachable initManager ∧
    (1 ∈ initManager.available_channels ↔
      ¬ ∃ k ns, Bartleby.dictGet initManager.active_notes k = some ns ∧
        ns.active = true ∧ ns.channel = 1) :=
  ⟨Relation.ReflTransGen.refl,
   (channel_exclusivity initManager Relation.ReflTransGen.refl).2 1 (by decide)⟩

end Bartleby.Midi
